import Mathlib

/-!
Shallow embedding of `kindle-clippings-to-obsidian` (two Python source files:
`extract-kindle-clippings.py` and `utilities.py`) and proofs about the claims
of the repository's specification.

Python strings are modelled as `List Char` (`Str`).  Python's `\d`, `\s` and
`str.strip()` character classes are modelled over their ASCII subsets
(`0-9` and the six ASCII whitespace characters); every string appearing in
the specification and its claims is ASCII, so no behaviour relevant to the
claims depends on the difference.
-/

/-- Python strings, modelled as lists of characters. -/
abbrev Str := List Char

/-- ASCII part of Python's default `str.strip()` / `\s` whitespace set:
space, tab, newline, carriage return, vertical tab, form feed. -/
def isSpaceC (c : Char) : Bool :=
  c = ' ' ∨ c = '\t' ∨ c = '\n' ∨ c = '\r' ∨ c = '\x0b' ∨ c = '\x0c'

/-- ASCII decimal digit, the model of the regex class `\d`. -/
def isDigitC (c : Char) : Bool := '0' ≤ c ∧ c ≤ '9'

/-- Python `str.strip()`: drop whitespace from both ends. -/
def strip (s : Str) : Str :=
  ((s.dropWhile isSpaceC).reverse.dropWhile isSpaceC).reverse

/-- Python `str.replace("  ", " ")`: a single left-to-right pass replacing
each non-overlapping occurrence of two consecutive spaces by one
(source line 209 of `extract-kindle-clippings.py`). -/
def replaceDoubleSpace : Str → Str
  | ' ' :: ' ' :: rest => ' ' :: replaceDoubleSpace rest
  | c :: rest => c :: replaceDoubleSpace rest
  | [] => []

/-- Python `int()` on a non-empty string of decimal digits. -/
def digitsToNat (s : Str) : Nat :=
  s.foldl (fun acc c => 10 * acc + (c.toNat - '0'.toNat)) 0

/-- `beginsWith pat s` is true when `pat` is a prefix of `s`. -/
def beginsWith : Str → Str → Bool
  | [], _ => true
  | _ :: _, [] => false
  | p :: ps, c :: cs => p = c && beginsWith ps cs

/-- Python's substring test `pat in s`. -/
def hasSub (s pat : Str) : Bool :=
  beginsWith pat s ||
    match s with
    | [] => false
    | _ :: cs => hasSub cs pat

/-- Split a written text on newline characters, producing the lines a later
reader (`readline`) sees, without their terminators. -/
def splitLinesAux (cur : Str) : Str → List Str
  | [] => [cur.reverse]
  | c :: cs => if c = '\n' then cur.reverse :: splitLinesAux [] cs else splitLinesAux (c :: cur) cs

def splitLines (s : Str) : List Str := splitLinesAux [] s

/-- Python `s.split(sep)[0]` for a non-empty separator: the part of `s`
before the first occurrence of `sep` (all of `s` when `sep` is absent). -/
def takeUntilSub (s sep : Str) : Str :=
  if beginsWith sep s then []
  else match s with
    | [] => []
    | c :: cs => c :: takeUntilSub cs sep

/-! ### Regex models

Each regular expression of the source is modelled by a dedicated function
with Python `re` semantics: leftmost match, greedy quantifiers with
backtracking.  `tryLen f n` realises greedy backtracking: it tries the
candidate lengths `n, n-1, …, 0` in order and returns the first success,
exactly the order in which a greedy quantifier explores its choices. -/

def tryLen (f : Nat → Option α) : Nat → Option α
  | 0 => f 0
  | n + 1 => (f (n + 1)).orElse fun _ => tryLen f n

/-- Leftmost unanchored search: try a match at every start position, from the
left; `pat` receives the suffix beginning at the candidate position. -/
def searchFrom (pat : Str → Option α) : Str → Option α
  | [] => pat []
  | c :: cs => (pat (c :: cs)).orElse fun _ => searchFrom pat cs

/-- `regex_title = ^(.*)\((.*)\)$` (source line 118), returning the two
groups.  The outer `(.*)` is greedy, so the split is at the last `'('`
that still lets the remainder match `(.*)\)$`. -/
def matchTitle (s : Str) : Option (Str × Str) :=
  tryLen
    (fun j =>
      if j ≤ s.length then
        let g1 := s.take j
        let r := s.drop j
        match r with
        | '(' :: r1 =>
          tryLen
            (fun i =>
              let g2 := r1.take i
              if r1.drop i = [')'] then some (g1, g2) else none)
            r1.length
        | _ => none
      else none)
    s.length

/-- Character class `[\s|]` of `regex_info`. -/
def isSpaceOrBar (c : Char) : Bool := isSpaceC c || c = '|'

/-- `regex_info = ^- Your (\S+) (.*)[\s|]+Added on\s+(.+)$` (source line
119), returning the groups (note type, location text, date text). -/
def matchInfo (s : Str) : Option (Str × Str × Str) :=
  if beginsWith ("- Your ".toList) s then
    let rest := s.drop 7
    -- (\S+), greedy, then a literal space
    tryLen
      (fun k =>
        if k = 0 then none
        else
          let w := rest.take k
          if w.length = k ∧ w.all (fun c => ¬ isSpaceC c) then
            match rest.drop k with
            | ' ' :: r =>
              -- (.*), greedy
              tryLen
                (fun j =>
                  if j ≤ r.length then
                    let g2 := r.take j
                    let r2 := r.drop j
                    -- [\s|]+, greedy
                    tryLen
                      (fun m =>
                        if m = 0 then none
                        else
                          let sep := r2.take m
                          if sep.length = m ∧ sep.all isSpaceOrBar then
                            let r3 := r2.drop m
                            if beginsWith ("Added on".toList) r3 then
                              let r4 := r3.drop 8
                              -- \s+, greedy, then (.+)$ non-empty to the end
                              tryLen
                                (fun t =>
                                  if t = 0 then none
                                  else
                                    let ws := r4.take t
                                    if ws.length = t ∧ ws.all isSpaceC ∧ r4.drop t ≠ [] then
                                      some (w, g2, r4.drop t)
                                    else none)
                                r4.length
                            else none
                          else none)
                      r2.length
                  else none)
                r.length
            | _ => none
          else none)
      rest.length
  else none

/-- Match, at the current position, `location ([\d\-]+)`: the literal
`"location "` followed by a maximal non-empty run of digits and hyphens
(the run is greedy and nothing follows it in the pattern, so no
backtracking arises). -/
def locAt (s : Str) : Option Str :=
  if beginsWith ("location ".toList) s then
    let run := (s.drop 9).takeWhile (fun c => isDigitC c || c = '-')
    if run = [] then none else some run
  else none

/-- `regex_loc.findall(...)[0]` (source line 120): leftmost occurrence. -/
def locSearch (s : Str) : Option Str := searchFrom locAt s

/-- Match, at the current position, `page ([\d\-]+)`. -/
def pageAt (s : Str) : Option Str :=
  if beginsWith ("page ".toList) s then
    let run := (s.drop 5).takeWhile (fun c => isDigitC c || c = '-')
    if run = [] then none else some run
  else none

/-- `regex_page.findall(...)[0]` (source line 121): leftmost occurrence. -/
def pageSearch (s : Str) : Option Str := searchFrom pageAt s

/-- `regex_num = (\d+)` (source line 123): leftmost maximal digit run. -/
def numSearch (s : Str) : Option Str :=
  searchFrom
    (fun t =>
      let run := t.takeWhile isDigitC
      if run = [] then none else some run)
    s

/-- Match, at the current position, `(\d+)\-(\d+)`: a greedy digit run, a
hyphen, a greedy digit run.  The first `\d+` is explored greedily with
backtracking (`tryLen`); the second is final in the pattern, hence maximal. -/
def numrangeAt (s : Str) : Option (Str × Str) :=
  let d := s.takeWhile isDigitC
  tryLen
    (fun k =>
      if k = 0 then none
      else
        let d1 := d.take k
        if d1.length = k then
          match s.drop k with
          | '-' :: r =>
            let d2 := r.takeWhile isDigitC
            if d2 = [] then none else some (d1, d2)
          | _ => none
        else none)
    d.length

/-- `regex_numrange.search` (source line 124): leftmost occurrence of
`(\d+)\-(\d+)`, both groups. -/
def numrangeSearch (s : Str) : Option (Str × Str) := searchFrom numrangeAt s

/-- Hex-character class `[a-fA-F0-9]` of `regex_hashline`. -/
def isHexC (c : Char) : Bool :=
  isDigitC c || ('a' ≤ c ∧ c ≤ 'f') || ('A' ≤ c ∧ c ≤ 'F')

/-- `regex_hashline = ^\.\.\s*([a-fA-F0-9]+)\s*` applied by `findall` and
taking the first result (source lines 126 and 151-157): the line must start
with `".."`, then optional whitespace, then a non-empty hex run, which is
the recovered hash.  (`\s*` is greedy; no whitespace character is a hex
character, so the maximal whitespace run is the only viable choice.) -/
def scanHashLine (line : Str) : Option Str :=
  match line with
  | '.' :: '.' :: r =>
    let r1 := r.dropWhile isSpaceC
    let run := r1.takeWhile isHexC
    if run = [] then none else some run
  | _ => none

/-- The existing-hash scan of one output file's lines (source lines
147-159): every line contributes its recovered hash, if any. -/
def scanMarkdown (lines : List Str) : List Str :=
  lines.filterMap scanHashLine

/-! ### The idempotency hasher

`note_hash = hashlib.sha256(note_text.encode("utf8")).hexdigest()[:8]`
(source line 211).  SHA-256 is implemented below over `Nat` bytes/words with
explicit reduction modulo `2^32`, following FIPS 180-4. -/

/-- UTF-8 encoding of one code point. -/
def utf8Char (n : Nat) : List Nat :=
  if n < 128 then [n]
  else if n < 2048 then [192 + n / 64, 128 + n % 64]
  else if n < 65536 then [224 + n / 4096, 128 + n / 64 % 64, 128 + n % 64]
  else [240 + n / 262144, 128 + n / 4096 % 64, 128 + n / 64 % 64, 128 + n % 64]

/-- Python `str.encode("utf8")`: the UTF-8 bytes of a string. -/
def utf8Encode (s : Str) : List Nat := s.flatMap fun c => utf8Char c.toNat

/-- 32-bit right rotation of a word `x < 2^32`. -/
def rotr (n x : Nat) : Nat := x % 2 ^ n * 2 ^ (32 - n) + x / 2 ^ n

/-- SHA-256 working state: eight 32-bit words. -/
structure H8 where
  a : Nat
  b : Nat
  c : Nat
  d : Nat
  e : Nat
  f : Nat
  g : Nat
  h : Nat

/-- SHA-256 round constants. -/
def shaK : List Nat :=
  [1116352408, 1899447441, 3049323471, 3921009573, 961987163,
   1508970993, 2453635748, 2870763221, 3624381080, 310598401,
   607225278, 1426881987, 1925078388, 2162078206, 2614888103,
   3248222580, 3835390401, 4022224774, 264347078, 604807628,
   770255983, 1249150122, 1555081692, 1996064986, 2554220882,
   2821834349, 2952996808, 3210313671, 3336571891, 3584528711,
   113926993, 338241895, 666307205, 773529912, 1294757372,
   1396182291, 1695183700, 1986661051, 2177026350, 2456956037,
   2730485921, 2820302411, 3259730800, 3345764771, 3516065817,
   3600352804, 4094571909, 275423344, 430227734, 506948616,
   659060556, 883997877, 958139571, 1322822218, 1537002063,
   1747873779, 1955562222, 2024104815, 2227730452, 2361852424,
   2428436474, 2756734187, 3204031479, 3329325298]

/-- SHA-256 initial hash value. -/
def shaInit : H8 :=
  ⟨1779033703, 3144134277, 1013904242, 2773480762, 1359893119, 2600822924, 528734635, 1541459225⟩

def bsig0 (x : Nat) : Nat := rotr 2 x ^^^ rotr 13 x ^^^ rotr 22 x

def bsig1 (x : Nat) : Nat := rotr 6 x ^^^ rotr 11 x ^^^ rotr 25 x

def ssig0 (x : Nat) : Nat := rotr 7 x ^^^ rotr 18 x ^^^ x / 2 ^ 3

def ssig1 (x : Nat) : Nat := rotr 17 x ^^^ rotr 19 x ^^^ x / 2 ^ 10

def chFn (e f g : Nat) : Nat := (e &&& f) ^^^ ((4294967295 - e) &&& g)

def majFn (a b c : Nat) : Nat := (a &&& b) ^^^ (a &&& c) ^^^ (b &&& c)

/-- One SHA-256 round with constant `k` and schedule word `w`. -/
def shaRound (s : H8) (kw : Nat × Nat) : H8 :=
  let t1 := (s.h + bsig1 s.e + chFn s.e s.f s.g + kw.1 + kw.2) % 2 ^ 32
  let t2 := (bsig0 s.a + majFn s.a s.b s.c) % 2 ^ 32
  ⟨(t1 + t2) % 2 ^ 32, s.a, s.b, s.c, (s.d + t1) % 2 ^ 32, s.e, s.f, s.g⟩

/-- Big-endian 32-bit words from a 64-byte block. -/
def blockWords : List Nat → List Nat
  | b0 :: b1 :: b2 :: b3 :: rest =>
    (b0 * 16777216 + b1 * 65536 + b2 * 256 + b3) :: blockWords rest
  | _ => []

/-- Extend the 16 block words to the 64-word message schedule.  The
accumulator holds the words produced so far in reverse order, so that
`w[i-2]`, `w[i-7]`, `w[i-15]`, `w[i-16]` are at positions 1, 6, 14, 15. -/
def extendW : Nat → List Nat → List Nat
  | 0, acc => acc
  | k + 1, acc =>
    let w := (ssig1 (acc.getD 1 0) + acc.getD 6 0 + ssig0 (acc.getD 14 0) + acc.getD 15 0) % 2 ^ 32
    extendW k (w :: acc)

def schedule (block : List Nat) : List Nat :=
  (extendW 48 (blockWords block).reverse).reverse

/-- Compress one 64-byte block into the chaining state. -/
def shaCompress (s : H8) (block : List Nat) : H8 :=
  let w := schedule block
  let r := (shaK.zip w).foldl shaRound s
  ⟨(s.a + r.a) % 2 ^ 32, (s.b + r.b) % 2 ^ 32, (s.c + r.c) % 2 ^ 32, (s.d + r.d) % 2 ^ 32,
   (s.e + r.e) % 2 ^ 32, (s.f + r.f) % 2 ^ 32, (s.g + r.g) % 2 ^ 32, (s.h + r.h) % 2 ^ 32⟩

/-- SHA-256 padding: `0x80`, zeros to 56 mod 64, then the bit length as
eight big-endian bytes. -/
def shaPad (msg : List Nat) : List Nat :=
  let l := msg.length
  let zeros := (120 - (l + 1) % 64) % 64
  let bits := 8 * l
  msg ++ 128 :: List.replicate zeros 0 ++
    [bits / 2 ^ 56 % 256, bits / 2 ^ 48 % 256, bits / 2 ^ 40 % 256, bits / 2 ^ 32 % 256,
     bits / 2 ^ 24 % 256, bits / 2 ^ 16 % 256, bits / 2 ^ 8 % 256, bits % 256]

/-- Split the padded message into 64-byte blocks.  The recursion is paced
by a fuel counter; `chunks64` supplies the byte count, which suffices
because each step consumes 64 bytes (at least one), so the zero-fuel arm
is unreachable. -/
def chunks64F : Nat → List Nat → List (List Nat)
  | _, [] => []
  | 0, _ :: _ => []
  | f + 1, c :: cs => ((c :: cs).take 64) :: chunks64F f ((c :: cs).drop 64)

def chunks64 (l : List Nat) : List (List Nat) := chunks64F l.length l

/-- Big-endian bytes of a 32-bit word. -/
def wordBytes (w : Nat) : List Nat :=
  [w / 16777216 % 256, w / 65536 % 256, w / 256 % 256, w % 256]

/-- The 32 digest bytes of a final state. -/
def digestBytes (s : H8) : List Nat :=
  wordBytes s.a ++ wordBytes s.b ++ wordBytes s.c ++ wordBytes s.d ++
    wordBytes s.e ++ wordBytes s.f ++ wordBytes s.g ++ wordBytes s.h

/-- SHA-256 of a byte string, as 32 bytes. -/
def sha256 (msg : List Nat) : List Nat :=
  digestBytes ((chunks64 (shaPad msg)).foldl shaCompress shaInit)

/-- The sixteen lowercase hexadecimal digits. -/
def hexDigitsLower : List Char := "0123456789abcdef".toList

def hexDigit (n : Nat) : Char := hexDigitsLower.getD n '0'

/-- Python `hashlib`'s `.hexdigest()`: two lowercase hex characters per byte. -/
def hexdigest (bytes : List Nat) : Str :=
  bytes.flatMap fun b => [hexDigit (b / 16 % 16), hexDigit (b % 16)]

/-- `note_hash` (source line 211): the first 8 characters of the lowercase
hexadecimal SHA-256 digest of the UTF-8 encoding of the text. -/
def note_hash (text : Str) : Str :=
  (hexdigest (sha256 (utf8Encode text))).take 8

/-! ### The similarity metric

`longest_common_substring_len` of `utilities.py` (lines 12-37): a rolling
two-row dynamic program.  A row is represented without its always-zero
index 0; `nextRow ai b q` is called with `q = 0 :: prev` so that the entry
for column `j` reads `prev[j-1]`, exactly as `cur[j] = prev[j-1] + 1` in
the source.  Missing entries read as `0`, matching the zero-initialised
`prev` row. -/

def nextRow (ai : Char) : List Char → List Nat → List Nat
  | [], _ => []
  | bj :: bs, q => (if ai = bj then q.headD 0 + 1 else 0) :: nextRow ai bs q.tail

/-- Maximum entry of a row (`best` is the running maximum in the source). -/
def listMax (xs : List Nat) : Nat := xs.foldr max 0

/-- The outer loop over the rows of `a`, keeping the best entry seen. -/
def runDP (b : List Char) : List Nat → List Char → Nat
  | _, [] => 0
  | prev, ai :: rest =>
    let cur := nextRow ai b (0 :: prev)
    max (listMax cur) (runDP b cur rest)

/-- The DP after the argument swap: outer loop over `a`, rows over `b`. -/
def lcsCore (a b : List Char) : Nat := runDP b [] a

/-- `longest_common_substring_len(a, b)` (utilities.py lines 12-37):
return 0 if either input is empty; otherwise swap so the second argument
is the shorter and run the DP. -/
def longest_common_substring_len (a b : Str) : Nat :=
  if a = [] ∨ b = [] then 0
  else if b.length > a.length then lcsCore b a else lcsCore a b

/-- Length of the longest common prefix of two lists. -/
def prefLen : List Char → List Char → Nat
  | x :: xs, y :: ys => if x = y then prefLen xs ys + 1 else 0
  | _, _ => 0

/-- Length of the longest common suffix of two lists. -/
def suffLen (x y : List Char) : Nat := prefLen x.reverse y.reverse

/-! ### The record parser

The reading loop of `extract-kindle-clippings.py` (lines 167-240).  The
input is modelled as the list of raw lines of the clippings file (without
their newline terminators, and after the caller has skipped the initial
byte-order mark via `mc.read(1)` and the BOM `replace` of line 171);
`readline()` at end of file yields the empty string, which is what the
`[]` cases model.  Date parsing is delegated to the external `dateutil`
library, modelled as an oracle `dp : Str → Option Str` returning the
rendered `str(parse(date))` on success; the bare `except` of lines 230-233
falls back to the raw date string. -/

def noteSep : Str := "==========".toList

/-- One parsed clipping with the values the source computes for it. -/
structure Record where
  key : Str
  title : Str
  author : Str
  noteType : Str
  locstr : Str
  dateRaw : Str
  datestr : Str
  text : Str
  hashv : Str
deriving DecidableEq, Repr

/-- Parser failure. `malformedInfo` models the uncaught `IndexError` of
`regex_info.findall(line)[0]` (lines 179-181) and carries the offending
line; `unterminated` marks a record whose text never reaches the
`==========` delimiter, where the source's inner `while` loop (lines
204-206) never terminates. -/
inductive PErr where
  | malformedInfo (line : Str)
  | unterminated
deriving DecidableEq, Repr

/-- The inner text loop (lines 200-206): strip each line and accumulate
`line + "\n"` until a line equal to the delimiter; return the text and the
remaining lines. -/
def collectText : List Str → Option (Str × List Str)
  | [] => none
  | l :: ls =>
    let t := strip l
    if t = noteSep then some ([], ls)
    else
      match collectText ls with
      | none => none
      | some (txt, rest) => some (t ++ '\n' :: txt, rest)

/-- Build one record from its parsed pieces, mirroring lines 182-238. -/
def mkRecord (dp : Str → Option Str) (key ty locgrp date : Str) (txt : Str) : Record :=
  let resultTitle := matchTitle key
  let title := match resultTitle with | some (t, _) => t | none => key
  let author := match resultTitle with | some (_, a) => a | none => "Unknown".toList
  let noteLoc := (locSearch locgrp).getD []
  let notePage := (pageSearch locgrp).getD []
  let locstr :=
    (if noteLoc ≠ [] then "loc. ".toList ++ noteLoc else []) ++
      (if notePage ≠ [] then
        (if noteLoc ≠ [] then ", ".toList else []) ++ "p.".toList ++ notePage
       else [])
  let noteText := replaceDoubleSpace (strip txt)
  { key := key
    title := strip title
    author := strip author
    noteType := ty
    locstr := locstr
    dateRaw := date
    datestr := (dp date).getD date
    text := noteText
    hashv := note_hash noteText }

/-- The main reading loop (lines 171-240), producing the records in file
order or the first fatal error.  The recursion is paced by a fuel counter;
`parseLoop` below supplies the number of input lines as fuel, which always
suffices because every iteration consumes at least three lines while the
fuel drops by one, so the fuel-exhaustion arm is unreachable (this is what
`parseLoopF_mono` makes precise: any fuel of at least the line count gives
the same result). -/
def parseLoopF (dp : Str → Option Str) : Nat → List Str → Except PErr (List Record)
  | _, [] => .ok []
  | 0, _ :: _ => .error .unterminated
  | fuel + 1, l :: ls =>
    if strip l = [] then .ok []
    else
      match matchInfo (strip (ls.headD [])) with
      | none => .error (.malformedInfo (strip (ls.headD [])))
      | some (ty, locgrp, date) =>
        match collectText ls.tail.tail with
        | none => .error .unterminated
        | some (txt, rest) =>
          match parseLoopF dp fuel rest with
          | .error e => .error e
          | .ok rs => .ok (mkRecord dp (strip l) ty locgrp date txt :: rs)

/-- The record parser: run the reading loop on the input lines. -/
def parseLoop (dp : Str → Option Str) (lines : List Str) : Except PErr (List Record) :=
  parseLoopF dp lines.length lines

/-! ### Book aggregation state and the chronology reconciler

Lines 128-138 hold the per-book hash lists (`pub_hashes`, keyed by the raw
header line and in insertion order) and the hash-keyed side tables
(`notes`, `locations`, `types`, `dates`).  The tables are modelled as total
maps, which is how the source reads them (it only ever looks up hashes it
has stored). -/

structure AggState where
  books : List (Str × List Str)
  notes : Str → Str
  locations : Str → Str
  types : Str → Str
  dates : Str → Str

/-- Sort key of the location branch (lines 250-254):
`int(regex_numrange.search(locations[item])[1])` when the search succeeds,
`-1` otherwise. -/
def rangeKey (locations : Str → Str) (h : Str) : Int :=
  match numrangeSearch (locations h) with
  | some (d1, _) => (digitsToNat d1 : Int)
  | none => -1

/-- Sort key of the page branch (lines 292-296):
`int(regex_num.search(locations[item])[1])` when the search succeeds,
`-1` otherwise. -/
def numKey (locations : Str → Str) (h : Str) : Int :=
  match numSearch (locations h) with
  | some d => (digitsToNat d : Int)
  | none => -1

/-- Stable insertion used to model Python's `sorted` (which is a stable
ascending sort by key; any stable sort computes the same list). -/
def insertK (key : Str → Int) (x : Str) : List Str → List Str
  | [] => [x]
  | y :: ys => if key x ≤ key y then x :: y :: ys else y :: insertK key x ys

def sortK (key : Str → Int) : List Str → List Str
  | [] => []
  | x :: xs => insertK key x (sortK key xs)

def locMarker : Str := "loc. ".toList

def pageMarker : Str := "p.".toList

/-- Reordering of one book's hash list (lines 243-256 and 287-298): the
branch is chosen by substring tests on the first note's location string.
(The source indexes `pub_hashes[k][0]`; the aggregator never stores an
empty list, so the `[]` case is unreachable.) -/
def reconcileBook (locations : Str → Str) (hashes : List Str) : List Str :=
  match hashes with
  | [] => []
  | h0 :: _ =>
    if hasSub (locations h0) locMarker then sortK (rangeKey locations) hashes
    else if hasSub (locations h0) pageMarker then sortK (numKey locations) hashes
    else hashes

/-- The whole reconciliation pass (lines 243-298): every book's hash list
is reordered in place; the side tables are not assigned to. -/
def reconcile (s : AggState) : AggState :=
  { s with books := s.books.map fun kb => (kb.1, reconcileBook s.locations kb.2) }

def bookmarkT : Str := "Bookmark".toList

/-- The overlap test for one adjacent pair in the location branch (lines
258-283).  The Python threshold `len_lcs > 0.4 * max(len1, len2)` computes
`0.4 * n` in IEEE double arithmetic; for every feasible length `n` (far
below `2^50`) that comparison of an integer against `0.4 * n` decides
exactly as the rational comparison `5 * len_lcs > 2 * n`, because the
accumulated rounding error is far below `1/5` and the tie case `n ≡ 0 (mod
5)` rounds to a value `≥ 2n/5`, on whose both sides the strict `>` gives
the same verdict. -/
def flagPair (notes types locations : Str → Str) (h1 h2 : Str) : Bool :=
  let str1 := notes h1
  let str2 := notes h2
  if types h1 = bookmarkT ∨ types h2 = bookmarkT ∨ max str1.length str2.length < 52 then
    false
  else
    match numrangeSearch (locations h1), numrangeSearch (locations h2) with
    | some (g11, g12), some (g21, g22) =>
      let r1s := digitsToNat g11
      let r1e := digitsToNat g12
      let r2s := digitsToNat g21
      let r2e := digitsToNat g22
      -- (range1[0] in range2) or (range1[1] in range2)
      if r1s = r2s ∨ r1s = r2e ∨ r1e = r2s ∨ r1e = r2e then
        decide (5 * longest_common_substring_len str1 str2 >
          2 * max str1.length str2.length)
      else false
    | _, _ => false

/-- The diagnostic loop over adjacent pairs (lines 258-259): which pairs
get the overlap warning.  It only reports; it changes nothing. -/
def overlapFlags (notes types locations : Str → Str) : List Str → List (Str × Str)
  | h1 :: h2 :: rest =>
    (if flagPair notes types locations h1 h2 then [(h1, h2)] else []) ++
      overlapFlags notes types locations (h2 :: rest)
  | _ => []

/-! ### The dedup gate and the writer -/

/-- `new_hashes` (lines 326-329): how many of the book's hashes are absent
from the existing-hash index. -/
def countNewHashes (existing : Str → Option Str) (hashes : List Str) : Nat :=
  (hashes.filter fun h => (existing h).isNone).length

/-- Which hashes the per-note writer loop (lines 367-402) actually writes:
those absent from the index whose text is non-empty, in list order. -/
def writtenHashes (existing : Str → Option Str) (notes : Str → Str)
    (hashes : List Str) : List Str :=
  hashes.filter fun h => (existing h).isNone && !(notes h).isEmpty

/-- The gate for one book (lines 326-334 plus the per-note filter): `none`
when the book has no new hashes (it is skipped before any file is opened),
otherwise the hashes that get written. -/
def bookWrite (existing : Str → Option Str) (notes : Str → Str)
    (hashes : List Str) : Option (List Str) :=
  if countNewHashes existing hashes = 0 then none
  else some (writtenHashes existing notes hashes)

/-- `short_title` (lines 314-318): truncate at the first of `"|"`,
`" - "`, `". "`, then hard-cap at 127 characters. -/
def shortTitleOf (title : Str) : Str :=
  let t1 := takeUntilSub title ("|".toList)
  let t2 := takeUntilSub t1 (" - ".toList)
  let t3 := takeUntilSub t2 (". ".toList)
  if t3.length > 128 then t3.take 127 else t3

/-- Routing of a book to its output file (lines 311-324): books with more
than two parsed notes get their own `"<author> - <short-title>.md"` file,
the rest go to the shared `short_notes.md`.  Returns the file name and the
`short` flag. -/
def routeBook (nrNotes : Nat) (author title : Str) : Str × Bool :=
  if nrNotes > 2 then
    (author ++ " - ".toList ++ strip (shortTitleOf title) ++ ".md".toList, false)
  else
    ("short_notes.md".toList, true)

def unknownA : Str := "Unknown".toList

/-- The text written for one note (lines 372-402): nothing when the hash
is already indexed or the text is empty; otherwise the metadata comment
line — location string and date string, plus author and title for
short-form books — followed by the quoted note.  Note that the
`commentstr + note_hash` part of the comment is commented out in the
source (lines 386-391), so no hash token is emitted. -/
def noteBlock (short : Bool) (author title : Str)
    (notes locations dates : Str → Str) (existing : Str → Option Str)
    (h : Str) : Str :=
  if (existing h).isSome then []
  else if notes h = [] then []
  else
    let comment :=
      locations h ++ " ; ".toList ++ dates h ++
        (if short then " ; ".toList ++ author ++ " ; ".toList ++ title else [])
    comment ++ '\n' :: ('>' :: notes h) ++ "\n---\n\n".toList

/-- Header of a short-notes section (lines 342-349). -/
def shortHeader (author title : Str) : Str :=
  let titlestr := if author ≠ unknownA then author ++ " - ".toList ++ title else title
  titlestr ++ '\n' :: List.replicate titlestr.length '-' ++ "\n\n".toList

/-- YAML header of a freshly created per-book file (lines 350-363);
`today` stands for `datetime.now().strftime("%Y-%m-%d")`. -/
def longHeader (today title author : Str) : Str :=
  "---\n".toList ++ "created_date: ".toList ++ today ++
    '\n' :: "title: ".toList ++ title ++
    '\n' :: (if author ≠ unknownA then "authors: [".toList ++ author ++ "]\n".toList else []) ++
    "tags:\n  - books\n".toList ++ "---\n".toList ++
    "## Summary\n\n## Highlights\n".toList

/-- Everything a book's processing appends to its output file (lines
340-402).  `freshFile` is the negation of `os.path.isfile(outfile)`. -/
def bookFileText (short freshFile : Bool) (today author title : Str)
    (notes locations dates : Str → Str) (existing : Str → Option Str)
    (hashes : List Str) : Str :=
  (if short then shortHeader author title
   else if freshFile then longHeader today title author else []) ++
    (hashes.map (noteBlock short author title notes locations dates existing)).flatten

/-- Processing of one selected book (lines 306-408): compute the route,
skip the book entirely when it has no new hashes, otherwise produce the
file name, the short flag and the appended text. -/
def processBook (today : Str) (freshFile : Bool) (existing : Str → Option Str)
    (notes locations dates : Str → Str) (author title : Str)
    (pubNotes pubHashes : List Str) : Option (Str × Bool × Str) :=
  let fs := routeBook pubNotes.length author title
  if countNewHashes existing pubHashes = 0 then none
  else
    some (fs.1, fs.2,
      bookFileText fs.2 freshFile today author title notes locations dates existing pubHashes)

/-- The maximum of all `suffLen p (u ++ bs.take (j+1))`, recursively. -/
def rowMax (p : Str) (u : Str) : Str → Nat
  | [] => 0
  | bj :: bs => max (suffLen p (u ++ [bj])) (rowMax p (u ++ [bj]) bs)

/-- The maximum over all rows, from the row of prefix `p ++ [head]` on. -/
def specDP (b p : Str) : Str → Nat
  | [] => 0
  | ai :: rest => max (rowMax (p ++ [ai]) [] b) (specDP b (p ++ [ai]) rest)

/-- The sort key `reconcileBook` effectively uses for a book: the
location-range key, the page key, or (in the leave-alone branch) a
constant key, under which the stable sort is the identity. -/
def bookKeyFn (locations : Str → Str) (hashes : List Str) : Str → Int :=
  match hashes with
  | [] => fun _ => 0
  | h0 :: _ =>
    if hasSub (locations h0) locMarker then rangeKey locations
    else if hasSub (locations h0) pageMarker then numKey locations
    else fun _ => 0

/-! ### Lemmas about the record parser -/

/-- The no-information date oracle: every date fails to parse. -/
def dpNone : Str → Option Str := fun _ => none

/-- Re-deriving the rendered date of a record under another date oracle. -/
def reDate (dp : Str → Option Str) (r : Record) : Record :=
  { r with datestr := (dp r.dateRaw).getD r.dateRaw }

/-- The text of a well-formed record body, as the parser accumulates it. -/
def textJoin (txts : List Str) : Str :=
  txts.foldr (fun t acc => strip t ++ '\n' :: acc) []

/-- Streams that are a concatenation of well-formed records: non-empty
header, information line accepted by `regex_info`, one skipped line, text
lines (none equal to the delimiter once stripped), a delimiter line. -/
inductive WFRecs : List Str → Prop where
  | nil : WFRecs []
  | cons (key info blank s : Str) (txts rest : List Str) :
      strip key ≠ [] →
      matchInfo (strip info) ≠ none →
      (∀ t ∈ txts, strip t ≠ noteSep) →
      strip s = noteSep →
      WFRecs rest →
      WFRecs (key :: info :: blank :: (txts ++ s :: rest))

/-! ### Concrete scenario inputs -/

/-- The input record of the specification's parse scenario (claim C3). -/
def c3lines : List Str :=
  ["Book Title (Jane Doe)".toList,
   "- Your Highlight on page 12 | Added on Monday, 1 January 2024 00:00:00".toList,
   "".toList,
   "Some  highlighted   text.".toList,
   "==========".toList]

def c3rec : Option Record :=
  match parseLoop dpNone c3lines with
  | .ok [r] => some r
  | _ => none

/-- A one-highlight clippings file used to evaluate the idempotence
round-trip (claim C1). -/
def c1lines : List Str :=
  ["Example Book (John Smith)".toList,
   "- Your Highlight on location 1-2 | Added on Monday, 1 January 2024 00:00:00".toList,
   "".toList,
   "Hello world highlighted text".toList,
   "==========".toList]

/-- First run: the output directory holds no hashes yet. -/
def c1existing : Str → Option Str := fun _ => none

def c1notesT (r : Record) : Str → Str := fun h => if h = r.hashv then r.text else []

def c1locT (r : Record) : Str → Str := fun h => if h = r.hashv then r.locstr else []

def c1dateT (r : Record) : Str → Str := fun h => if h = r.hashv then r.datestr else []

/-- Everything the first run writes for the single (short-routed) book of
`c1lines`. -/
def c1out : Str :=
  match parseLoop dpNone c1lines with
  | .ok [r] =>
    match processBook [] true c1existing (c1notesT r) (c1locT r) (c1dateT r)
        r.author r.title [r.text] [r.hashv] with
    | some (_, _, text) => text
    | none => []
  | _ => []

/-- The hashes the existing-hash scanner recovers from the first run's
output file. -/
def c1scan : List Str := scanMarkdown (splitLines c1out)

/-- The second run's new-note count for the same book, with the
ExistingHashIndex built from the first run's output. -/
def c1secondRunNew : Nat :=
  match parseLoop dpNone c1lines with
  | .ok [r] =>
    countNewHashes (fun h => if h ∈ c1scan then some ("short_notes.md".toList) else none)
      [r.hashv]
  | _ => 0

/-- Texts, hashes and index of the three-note book refuting claim C2's
"new notes" reading: two of the three notes are already indexed. -/
def c2t1 : Str := "the first note text of the counterexample book".toList

def c2t2 : Str := "the second note text of the counterexample book".toList

def c2t3 : Str := "the third note text of the counterexample book".toList

def c2notes : List Str := [c2t1, c2t2, c2t3]

def c2hashes : List Str := [note_hash c2t1, note_hash c2t2, note_hash c2t3]

def c2existing : Str → Option Str := fun h =>
  if h = note_hash c2t1 ∨ h = note_hash c2t2 then some ("old.md".toList) else none

def c2notesT : Str → Str := fun h =>
  if h = note_hash c2t1 then c2t1
  else if h = note_hash c2t2 then c2t2
  else if h = note_hash c2t3 then c2t3
  else []

def c2author : Str := "Jane Roe".toList

def c2title : Str := "Counterexample Book".toList

/-- The three-note location table of the specification's ordering example
(claim C5). -/
def hashA : Str := "aa".toList

def hashB : Str := "bb".toList

def hashC : Str := "cc".toList

def exLoc : Str → Str := fun h =>
  if h = hashA then "loc. 10-12".toList
  else if h = hashB then "loc. 50-60".toList
  else if h = hashC then "loc. 1-5".toList
  else []

/-- Concrete pair for the C6 witness: two 77-character highlights with
identical text and ranges sharing the endpoint 150. -/
def c6t1 : Str :=
  "It was the best of times, it was the worst of times, it was the age of wisdom".toList

def c6notesT : Str → Str := fun h =>
  if h = "h1".toList ∨ h = "h2".toList then c6t1 else []

def c6typesT : Str → Str := fun _ => "Highlight".toList

def c6locT : Str → Str := fun h =>
  if h = "h1".toList then "loc. 100-150".toList
  else if h = "h2".toList then "loc. 150-200".toList
  else []

def c7hash1 : Str := "cafe1234".toList

def c7existing : Str → Option Str := fun h =>
  if h = c7hash1 then some ("old.md".toList) else none

def c10state : AggState :=
  ⟨[("Example Book (John Smith)".toList, [hashA, hashB, hashC])],
   fun _ => [], exLoc, fun _ => [], fun _ => []⟩

theorem collectText_rest_le :
    ∀ ls txt rest, collectText ls = some (txt, rest) → rest.length ≤ ls.length := by
  intro ls
  induction ls with
  | nil => intro txt rest h; simp [collectText] at h
  | cons l ls ih =>
    intro txt rest h
    simp only [collectText] at h
    split at h
    · rw [Option.some.injEq, Prod.mk.injEq] at h
      rw [← h.2]
      simp
    · cases hc : collectText ls with
      | none => rw [hc] at h; simp at h
      | some p =>
        obtain ⟨pt, pr⟩ := p
        rw [hc] at h
        rw [Option.some.injEq, Prod.mk.injEq] at h
        have := ih pt pr hc
        rw [← h.2]
        simp only [List.length_cons]
        omega

/-! ### Lemmas about the hasher -/

theorem hexdigest_length (bs : List Nat) : (hexdigest bs).length = 2 * bs.length := by
  induction bs with
  | nil => rfl
  | cons b bs ih => simp [hexdigest] at ih ⊢; omega

theorem sha256_length (msg : List Nat) : (sha256 msg).length = 32 := by
  simp [sha256, digestBytes, wordBytes]

theorem hexDigit_mem (n : Nat) (h : n < 16) : hexDigit n ∈ hexDigitsLower := by
  interval_cases n <;> decide

theorem hexdigest_chars (bs : List Nat) : ∀ c ∈ hexdigest bs, c ∈ hexDigitsLower := by
  induction bs with
  | nil => intro c hc; simp [hexdigest] at hc
  | cons b bs ih =>
    intro c hc
    simp only [hexdigest, List.flatMap_cons, List.mem_append] at hc
    rcases hc with hc | hc
    · simp only [List.mem_cons, List.mem_singleton] at hc
      rcases hc with hc | hc | hc
      · exact hc ▸ hexDigit_mem _ (Nat.mod_lt _ (by norm_num))
      · exact hc ▸ hexDigit_mem _ (Nat.mod_lt _ (by norm_num))
      · simp at hc
    · exact ih c hc

theorem note_hash_length (t : Str) : (note_hash t).length = 8 := by
  simp only [note_hash, List.length_take, hexdigest_length, sha256_length]
  omega

/-- The SHA-256 implementation reproduces the FIPS 180-4 test vector for
the empty message. -/
theorem sha256_vector_empty :
    hexdigest (sha256 []) =
      ("e3b0c44298fc1c149afbf4c8996fb92427ae41e4649b934ca495991b7852b855".toList) := by
  decide

/-- The SHA-256 implementation reproduces the FIPS 180-4 test vector for
the message `"abc"`. -/
theorem sha256_vector_abc :
    hexdigest (sha256 (utf8Encode ("abc".toList))) =
      ("ba7816bf8f01cfea414140de5dae2223b00361a396177a9cb410ff61f20015ad".toList) := by
  decide

/-! ### Lemmas about the similarity metric

The DP of `longest_common_substring_len` is related to `suffLen`, the
length of the longest common suffix of two prefixes: entry `j` of the row
for the `a`-prefix `p` equals `suffLen p (b.take (j+1))`, and the result
is the maximum of all entries of all rows. -/

theorem prefLen_nil_left (y : List Char) : prefLen [] y = 0 := by
  cases y <;> rfl

theorem prefLen_nil_right (x : List Char) : prefLen x [] = 0 := by
  cases x <;> rfl

theorem prefLen_comm (x y : List Char) : prefLen x y = prefLen y x := by
  induction x generalizing y with
  | nil => rw [prefLen_nil_left, prefLen_nil_right]
  | cons a xs ih =>
    cases y with
    | nil => rw [prefLen_nil_left, prefLen_nil_right]
    | cons b ys =>
      simp only [prefLen, ih ys]
      by_cases h : a = b
      · subst h; simp
      · rw [if_neg h, if_neg fun hh => h hh.symm]

theorem prefLen_le_left (x y : List Char) : prefLen x y ≤ x.length := by
  induction x generalizing y with
  | nil => rw [prefLen_nil_left]; exact Nat.zero_le _
  | cons a xs ih =>
    cases y with
    | nil => rw [prefLen_nil_right]; exact Nat.zero_le _
    | cons b ys =>
      simp only [prefLen, List.length_cons]
      split
      · exact Nat.succ_le_succ (ih ys)
      · exact Nat.zero_le _

theorem prefLen_self (x : List Char) : prefLen x x = x.length := by
  induction x with
  | nil => rfl
  | cons a xs ih => simp [prefLen, ih]

theorem suffLen_nil_left (y : List Char) : suffLen [] y = 0 := by
  simp [suffLen, prefLen_nil_left]

theorem suffLen_nil_right (x : List Char) : suffLen x [] = 0 := by
  simp [suffLen, prefLen_nil_right]

theorem suffLen_comm (x y : List Char) : suffLen x y = suffLen y x := by
  simp [suffLen, prefLen_comm]

theorem suffLen_le_left (x y : List Char) : suffLen x y ≤ x.length := by
  simpa [suffLen] using prefLen_le_left x.reverse y.reverse

theorem suffLen_le_right (x y : List Char) : suffLen x y ≤ y.length := by
  rw [suffLen_comm]; exact suffLen_le_left y x

theorem suffLen_self (x : List Char) : suffLen x x = x.length := by
  simp [suffLen, prefLen_self]

theorem suffLen_snoc (p u : List Char) (x y : Char) :
    suffLen (p ++ [x]) (u ++ [y]) = if x = y then suffLen p u + 1 else 0 := by
  simp only [suffLen, List.reverse_append, List.reverse_cons, List.reverse_nil,
    List.nil_append, List.singleton_append, prefLen]

theorem getD_tail (l : List Nat) (t : Nat) : l.tail.getD t 0 = l.getD (t + 1) 0 := by
  cases l <;> simp [List.getD]

theorem headD_eq_getD (l : List Nat) : l.headD 0 = l.getD 0 0 := by
  cases l <;> rfl

/-- Pointwise characterisation of a DP row: under the invariant that `q`
(the shifted previous row) holds the common-suffix lengths of `p` with the
prefixes of `b` up to each column, the new row holds those of `p ++ [ai]`.
`u` is the already-consumed prefix of `b`. -/
theorem nextRow_getD (ai : Char) :
    ∀ (bs : List Char) (q : List Nat) (p u : List Char),
      (∀ s, s < bs.length → q.getD s 0 = suffLen p (u ++ bs.take s)) →
      ∀ t, t < bs.length →
        (nextRow ai bs q).getD t 0 = suffLen (p ++ [ai]) (u ++ bs.take (t + 1)) := by
  intro bs
  induction bs with
  | nil => intro q p u _ t ht; simp at ht
  | cons bj bs ih =>
    intro q p u hq t ht
    cases t with
    | zero =>
      have h0 := hq 0 (by simp)
      simp only [List.take_zero, List.append_nil] at h0
      simp only [nextRow, List.take_succ_cons, List.take_zero, List.getD_cons_zero]
      rw [suffLen_snoc]
      rw [headD_eq_getD, h0]
    | succ t =>
      simp only [List.length_cons, Nat.succ_lt_succ_iff] at ht
      have hq' : ∀ s, s < bs.length →
          q.tail.getD s 0 = suffLen p ((u ++ [bj]) ++ bs.take s) := by
        intro s hs
        rw [getD_tail, hq (s + 1) (by simp; omega)]
        simp [List.take_succ_cons]
      have := ih q.tail p (u ++ [bj]) hq' t ht
      simp only [nextRow, List.getD_cons_succ]
      rw [this]
      simp [List.take_succ_cons]

/-- The maximum of a DP row is the maximum of the common-suffix lengths. -/
theorem nextRow_listMax (ai : Char) :
    ∀ (bs : List Char) (q : List Nat) (p u : List Char),
      (∀ s, s < bs.length → q.getD s 0 = suffLen p (u ++ bs.take s)) →
      listMax (nextRow ai bs q) = rowMax (p ++ [ai]) u bs := by
  intro bs
  induction bs with
  | nil => intro q p u _; rfl
  | cons bj bs ih =>
    intro q p u hq
    have h0 := hq 0 (by simp)
    simp only [List.take_zero, List.append_nil] at h0
    have hq' : ∀ s, s < bs.length →
        q.tail.getD s 0 = suffLen p ((u ++ [bj]) ++ bs.take s) := by
      intro s hs
      rw [getD_tail, hq (s + 1) (by simp; omega)]
      simp [List.take_succ_cons]
    simp only [nextRow, listMax, List.foldr_cons, rowMax]
    have hrest : (nextRow ai bs q.tail).foldr max 0 = rowMax (p ++ [ai]) (u ++ [bj]) bs :=
      ih q.tail p (u ++ [bj]) hq'
    rw [hrest, suffLen_snoc, headD_eq_getD, h0]

theorem runDP_eq_specDP (b : Str) :
    ∀ (as : Str) (prev : List Nat) (p : Str),
      (∀ s, s < b.length → prev.getD s 0 = suffLen p (b.take (s + 1))) →
      runDP b prev as = specDP b p as := by
  intro as
  induction as with
  | nil => intro prev p _; rfl
  | cons ai rest ih =>
    intro prev p hprev
    have hq : ∀ s, s < b.length → (0 :: prev).getD s 0 = suffLen p ([] ++ b.take s) := by
      intro s hs
      cases s with
      | zero => simp [List.getD_cons_zero, suffLen_nil_right]
      | succ s =>
        simp only [List.getD_cons_succ, List.nil_append]
        exact hprev s (by omega)
    have hcur : ∀ s, s < b.length →
        (nextRow ai b (0 :: prev)).getD s 0 = suffLen (p ++ [ai]) (b.take (s + 1)) := by
      intro s hs
      have := nextRow_getD ai b (0 :: prev) p [] hq s hs
      simpa using this
    simp only [runDP, specDP]
    rw [ih (nextRow ai b (0 :: prev)) (p ++ [ai]) hcur]
    have hmax := nextRow_listMax ai b (0 :: prev) p [] hq
    simp only [List.nil_append] at hmax
    rw [hmax]

theorem lcsCore_eq_specDP (a b : Str) : lcsCore a b = specDP b [] a := by
  apply runDP_eq_specDP
  intro s _
  simp [List.getD, suffLen_nil_left]

theorem rowMax_le (p : Str) :
    ∀ (bs u : Str) (n : Nat),
      (∀ j, j < bs.length → suffLen p (u ++ bs.take (j + 1)) ≤ n) →
      rowMax p u bs ≤ n := by
  intro bs
  induction bs with
  | nil => intro u n _; exact Nat.zero_le _
  | cons bj bs ih =>
    intro u n h
    simp only [rowMax]
    apply max_le
    · have := h 0 (by simp)
      simpa using this
    · apply ih (u ++ [bj]) n
      intro j hj
      have := h (j + 1) (by simp; omega)
      simpa [List.take_succ_cons, List.append_assoc] using this

theorem le_rowMax (p : Str) :
    ∀ (bs u : Str) (j : Nat), j < bs.length →
      suffLen p (u ++ bs.take (j + 1)) ≤ rowMax p u bs := by
  intro bs
  induction bs with
  | nil => intro u j hj; simp at hj
  | cons bj bs ih =>
    intro u j hj
    cases j with
    | zero =>
      simp only [rowMax, List.take_succ_cons, List.take_zero]
      exact le_max_left _ _
    | succ j =>
      simp only [List.length_cons, Nat.succ_lt_succ_iff] at hj
      have := ih (u ++ [bj]) j hj
      simp only [rowMax]
      refine le_trans ?_ (le_max_right _ _)
      simpa [List.take_succ_cons, List.append_assoc] using this

theorem specDP_le (b : Str) :
    ∀ (as p : Str) (n : Nat),
      (∀ i, i < as.length → rowMax (p ++ as.take (i + 1)) [] b ≤ n) →
      specDP b p as ≤ n := by
  intro as
  induction as with
  | nil => intro p n _; exact Nat.zero_le _
  | cons ai rest ih =>
    intro p n h
    simp only [specDP]
    apply max_le
    · have := h 0 (by simp)
      simpa using this
    · apply ih (p ++ [ai]) n
      intro i hi
      have := h (i + 1) (by simp; omega)
      simpa [List.take_succ_cons, List.append_assoc] using this

theorem le_specDP (b : Str) :
    ∀ (as p : Str) (i : Nat), i < as.length →
      rowMax (p ++ as.take (i + 1)) [] b ≤ specDP b p as := by
  intro as
  induction as with
  | nil => intro p i hi; simp at hi
  | cons ai rest ih =>
    intro p i hi
    cases i with
    | zero =>
      simp only [specDP, List.take_succ_cons, List.take_zero]
      exact le_max_left _ _
    | succ i =>
      simp only [List.length_cons, Nat.succ_lt_succ_iff] at hi
      have := ih (p ++ [ai]) i hi
      simp only [specDP]
      refine le_trans ?_ (le_max_right _ _)
      simpa [List.take_succ_cons, List.append_assoc] using this

theorem lcsCore_le (a b : Str) (n : Nat)
    (h : ∀ i j, i < a.length → j < b.length →
      suffLen (a.take (i + 1)) (b.take (j + 1)) ≤ n) :
    lcsCore a b ≤ n := by
  rw [lcsCore_eq_specDP]
  apply specDP_le
  intro i hi
  apply rowMax_le
  intro j hj
  simpa using h i j hi hj

theorem le_lcsCore (a b : Str) (i j : Nat) (hi : i < a.length) (hj : j < b.length) :
    suffLen (a.take (i + 1)) (b.take (j + 1)) ≤ lcsCore a b := by
  rw [lcsCore_eq_specDP]
  have h1 := le_rowMax (a.take (i + 1)) b [] j hj
  have h2 := le_specDP b a [] i hi
  simp only [List.nil_append] at h1 h2
  exact le_trans h1 h2

theorem lcsCore_comm (a b : Str) : lcsCore a b = lcsCore b a := by
  apply le_antisymm
  · apply lcsCore_le
    intro i j hi hj
    rw [suffLen_comm]
    exact le_lcsCore b a j i hj hi
  · apply lcsCore_le
    intro i j hi hj
    rw [suffLen_comm]
    exact le_lcsCore a b j i hj hi

theorem lcsCore_self (a : Str) (ha : a ≠ []) : lcsCore a a = a.length := by
  apply le_antisymm
  · apply lcsCore_le
    intro i j hi hj
    exact le_trans (suffLen_le_left _ _) (by simp)
  · have hlen : a.length - 1 < a.length := by
      cases a with
      | nil => exact absurd rfl ha
      | cons x xs => simp
    have := le_lcsCore a a (a.length - 1) (a.length - 1) hlen hlen
    have htake : a.take (a.length - 1 + 1) = a := by
      apply List.take_of_length_le
      omega
    rw [htake, suffLen_self] at this
    exact this

theorem lcs_comm (a b : Str) :
    longest_common_substring_len a b = longest_common_substring_len b a := by
  simp only [longest_common_substring_len]
  by_cases h : a = [] ∨ b = []
  · rw [if_pos h, if_pos (Or.symm h)]
  · rw [if_neg h, if_neg fun hh => h (Or.symm hh)]
    rcases Nat.lt_trichotomy a.length b.length with hl | hl | hl
    · rw [if_pos hl, if_neg (by omega)]
    · rw [if_neg (by omega), if_neg (by omega)]
      exact lcsCore_comm a b
    · rw [if_neg (by omega), if_pos hl]

theorem lcs_self (a : Str) : longest_common_substring_len a a = a.length := by
  by_cases ha : a = []
  · subst ha; rfl
  · simp only [longest_common_substring_len]
    rw [if_neg (by simp [ha]), if_neg (by omega)]
    exact lcsCore_self a ha

theorem lcs_empty (a b : Str) (h : a = [] ∨ b = []) :
    longest_common_substring_len a b = 0 := by
  simp only [longest_common_substring_len]
  rw [if_pos h]

/-! ### Lemmas about the reconciler's stable sort -/

theorem insertK_perm (key : Str → Int) (x : Str) (l : List Str) :
    (insertK key x l).Perm (x :: l) := by
  induction l with
  | nil => exact List.Perm.refl _
  | cons y ys ih =>
    simp only [insertK]
    split
    · exact List.Perm.refl _
    · exact (ih.cons y).trans (List.Perm.swap x y ys)

theorem sortK_perm (key : Str → Int) (l : List Str) : (sortK key l).Perm l := by
  induction l with
  | nil => exact List.Perm.refl _
  | cons x xs ih => exact (insertK_perm key x (sortK key xs)).trans (ih.cons x)

theorem insertK_sorted (key : Str → Int) (x : Str) (l : List Str)
    (h : List.Sorted (fun a b => key a ≤ key b) l) :
    List.Sorted (fun a b => key a ≤ key b) (insertK key x l) := by
  induction l with
  | nil => simp [insertK]
  | cons y ys ih =>
    rw [List.sorted_cons] at h
    simp only [insertK]
    split
    · rename_i hxy
      rw [List.sorted_cons]
      constructor
      · intro b hb
        rcases List.mem_cons.mp hb with hb | hb
        · subst hb; exact hxy
        · exact le_trans hxy (h.1 b hb)
      · rw [List.sorted_cons]
        exact h
    · rename_i hxy
      rw [List.sorted_cons]
      constructor
      · intro b hb
        have hmem := (insertK_perm key x ys).mem_iff.mp hb
        rcases List.mem_cons.mp hmem with hb' | hb'
        · subst hb'
          exact le_of_lt (not_le.mp hxy)
        · exact h.1 b hb'
      · exact ih h.2

theorem sortK_sorted (key : Str → Int) (l : List Str) :
    List.Sorted (fun a b => key a ≤ key b) (sortK key l) := by
  induction l with
  | nil => simp [sortK]
  | cons x xs ih => exact insertK_sorted key x (sortK key xs) ih

theorem insertK_filter (key : Str → Int) (x : Str) (l : List Str) (v : Int) :
    (insertK key x l).filter (fun y => key y == v) =
      if key x = v then x :: l.filter (fun y => key y == v)
      else l.filter (fun y => key y == v) := by
  induction l with
  | nil =>
    by_cases hx : key x = v <;> simp [insertK, List.filter_cons, hx]
  | cons y ys ih =>
    simp only [insertK]
    split
    · by_cases hx : key x = v <;> simp [List.filter_cons, hx]
    · rename_i hxy
      have hyx : key y < key x := not_le.mp hxy
      by_cases hx : key x = v
      · have hy : ¬ key y = v := by omega
        simp [List.filter_cons, hx, hy, ih]
      · by_cases hy : key y = v <;> simp [List.filter_cons, hx, hy, ih]

theorem sortK_filter (key : Str → Int) (l : List Str) (v : Int) :
    (sortK key l).filter (fun y => key y == v) = l.filter (fun y => key y == v) := by
  induction l with
  | nil => rfl
  | cons x xs ih =>
    simp only [sortK]
    rw [insertK_filter]
    by_cases hx : key x = v <;> simp [List.filter_cons, hx, ih]

/-- With a constant key every comparison succeeds, so the stable sort is
the identity. -/
theorem sortK_const (l : List Str) : sortK (fun _ => 0) l = l := by
  induction l with
  | nil => rfl
  | cons x xs ih =>
    simp only [sortK, ih]
    cases xs <;> simp [insertK]

theorem reconcileBook_eq_sortK (locations : Str → Str) (hashes : List Str) :
    reconcileBook locations hashes = sortK (bookKeyFn locations hashes) hashes := by
  cases hashes with
  | nil => rfl
  | cons h0 rest =>
    simp only [reconcileBook, bookKeyFn]
    by_cases h1 : hasSub (locations h0) locMarker
    · simp [h1]
    · by_cases h2 : hasSub (locations h0) pageMarker
      · simp [h1, h2]
      · simp [h1, h2, sortK_const]

theorem reconcileBook_perm (locations : Str → Str) (hashes : List Str) :
    (reconcileBook locations hashes).Perm hashes := by
  rw [reconcileBook_eq_sortK]
  exact sortK_perm _ _

theorem reconcileBook_filter (locations : Str → Str) (hashes : List Str) (v : Int) :
    (reconcileBook locations hashes).filter
        (fun h => bookKeyFn locations hashes h == v) =
      hashes.filter (fun h => bookKeyFn locations hashes h == v) := by
  rw [reconcileBook_eq_sortK]
  exact sortK_filter _ _ _

theorem collectText_append (txts : List Str) (s : Str) (rest : List Str)
    (ht : ∀ t ∈ txts, strip t ≠ noteSep) (hs : strip s = noteSep) :
    collectText (txts ++ s :: rest) = some (textJoin txts, rest) := by
  induction txts with
  | nil => simp [collectText, hs, textJoin]
  | cons t ts ih =>
    simp only [List.cons_append, collectText]
    rw [if_neg (ht t (by simp))]
    simp only [List.append_eq]
    rw [ih fun u hu => ht u (by simp [hu])]
    simp [textJoin]

theorem mkRecord_dp (dp : Str → Option Str) (key ty locgrp date txt : Str) :
    mkRecord dp key ty locgrp date txt = reDate dp (mkRecord dpNone key ty locgrp date txt) := rfl

theorem parseLoopF_mono (dp : Str → Option Str) :
    ∀ (f1 f2 : Nat) (lines : List Str), lines.length ≤ f1 → lines.length ≤ f2 →
      parseLoopF dp f1 lines = parseLoopF dp f2 lines := by
  intro f1
  induction f1 with
  | zero =>
    intro f2 lines h1 h2
    have : lines = [] := List.length_eq_zero.mp (by omega)
    subst this
    cases f2 <;> rfl
  | succ f1 ih =>
    intro f2 lines h1 h2
    cases lines with
    | nil => cases f2 <;> rfl
    | cons l ls =>
      cases f2 with
      | zero => simp at h2
      | succ f2 =>
        simp only [parseLoopF]
        by_cases hk : strip l = []
        · rw [if_pos hk, if_pos hk]
        · rw [if_neg hk, if_neg hk]
          cases matchInfo (strip (ls.headD [])) with
          | none => rfl
          | some v =>
            obtain ⟨ty, lg, dt⟩ := v
            cases hct : collectText ls.tail.tail with
            | none => rfl
            | some p =>
              obtain ⟨txt, rest⟩ := p
              dsimp only
              have hr : rest.length ≤ ls.length :=
                le_trans (collectText_rest_le _ _ _ hct)
                  (by simp only [List.length_tail]; omega)
              simp only [List.length_cons] at h1 h2
              rw [ih f2 rest (by omega) (by omega)]

theorem parseLoopF_map_dp (dp : Str → Option Str) :
    ∀ (fuel : Nat) (lines : List Str),
      parseLoopF dp fuel lines = (parseLoopF dpNone fuel lines).map (List.map (reDate dp)) := by
  intro fuel
  induction fuel with
  | zero => intro lines; cases lines <;> rfl
  | succ fuel ih =>
    intro lines
    cases lines with
    | nil => rfl
    | cons l ls =>
      simp only [parseLoopF]
      by_cases hk : strip l = []
      · rw [if_pos hk, if_pos hk]
        rfl
      · rw [if_neg hk, if_neg hk]
        cases matchInfo (strip (ls.headD [])) with
        | none => rfl
        | some v =>
          obtain ⟨ty, lg, dt⟩ := v
          cases collectText ls.tail.tail with
          | none => rfl
          | some p =>
            obtain ⟨txt, rest⟩ := p
            dsimp only
            rw [ih rest]
            cases parseLoopF dpNone fuel rest <;> rfl

theorem parseLoop_map_dp (dp : Str → Option Str) (lines : List Str) :
    parseLoop dp lines = (parseLoop dpNone lines).map (List.map (reDate dp)) :=
  parseLoopF_map_dp dp lines.length lines

/-- One-step unfolding of the reading loop on a non-empty line list. -/
theorem parseLoop_cons (dp : Str → Option Str) (l : Str) (ls : List Str) :
    parseLoop dp (l :: ls) =
      (if strip l = [] then .ok []
       else
         match matchInfo (strip (ls.headD [])) with
         | none => .error (.malformedInfo (strip (ls.headD [])))
         | some (ty, locgrp, date) =>
           match collectText ls.tail.tail with
           | none => .error .unterminated
           | some (txt, rest) =>
             match parseLoop dp rest with
             | .error e => .error e
             | .ok rs => .ok (mkRecord dp (strip l) ty locgrp date txt :: rs)) := by
  show parseLoopF dp (l :: ls).length (l :: ls) = _
  simp only [List.length_cons, parseLoopF]
  by_cases hk : strip l = []
  · rw [if_pos hk, if_pos hk]
  · rw [if_neg hk, if_neg hk]
    cases matchInfo (strip (ls.headD [])) with
    | none => rfl
    | some v =>
      obtain ⟨ty, lg, dt⟩ := v
      cases hct : collectText ls.tail.tail with
      | none => rfl
      | some p =>
        obtain ⟨txt, rest⟩ := p
        dsimp only
        have hr : rest.length ≤ ls.length :=
          le_trans (collectText_rest_le _ _ _ hct)
            (by simp only [List.length_tail]; omega)
        rw [parseLoopF_mono dp ls.length rest.length rest hr (le_refl _)]
        rfl

theorem parseLoop_malformed_base (dp : Str → Option Str) (header bad : Str) (tl : List Str)
    (hh : strip header ≠ []) (hb : matchInfo (strip bad) = none) :
    parseLoop dp (header :: bad :: tl) = .error (.malformedInfo (strip bad)) := by
  rw [parseLoop_cons]
  rw [if_neg hh]
  simp only [List.headD_cons]
  rw [hb]

theorem parseLoop_wf_prepend_error (dp : Str → Option Str) (g : List Str) (hg : WFRecs g) :
    ∀ (tl : List Str) (e : PErr), parseLoop dp tl = .error e →
      parseLoop dp (g ++ tl) = .error e := by
  induction hg with
  | nil => intro tl e h; simpa using h
  | cons key info blank s txts rest hkey hinfo htxt hsep hrest ih =>
    intro tl e h
    have hconc : (key :: info :: blank :: (txts ++ s :: rest)) ++ tl =
        key :: info :: blank :: (txts ++ s :: (rest ++ tl)) := by simp
    rw [hconc, parseLoop_cons]
    simp only [List.headD_cons, List.tail_cons]
    rw [if_neg hkey]
    cases hmi2 : matchInfo (strip info) with
    | none => exact absurd hmi2 hinfo
    | some v =>
      obtain ⟨ty, lg, dt⟩ := v
      rw [collectText_append txts s (rest ++ tl) htxt hsep]
      dsimp only
      rw [ih tl e h]

/-! ### The claims -/

/-- C4: for every note, the content hash equals the first 8 characters of
the lowercase hexadecimal SHA-256 digest of the UTF-8 encoding of the
normalized text; it is deterministic, always exactly 8 lowercase hex
characters, depends on the text alone (it is a function of the text and of
nothing else), and any two notes with identical normalized text receive
the same hash. -/
theorem C4_content_hash :
    (∀ t : Str, note_hash t = (hexdigest (sha256 (utf8Encode t))).take 8) ∧
    (∀ t : Str, (note_hash t).length = 8) ∧
    (∀ t : Str, ∀ c ∈ note_hash t, c ∈ hexDigitsLower) ∧
    (∀ t₁ t₂ : Str, t₁ = t₂ → note_hash t₁ = note_hash t₂) :=
  ⟨fun _ => rfl, note_hash_length,
   fun t c hc => hexdigest_chars (sha256 (utf8Encode t)) c (List.take_subset _ _ hc),
   fun _ _ h => h ▸ rfl⟩

/-- Witness for C4 at a concrete text. -/
theorem C4_content_hash_witness :
    note_hash ("abc".toList) = note_hash ("abc".toList) ∧
      (note_hash ("abc".toList)).length = 8 :=
  ⟨C4_content_hash.2.2.2 ("abc".toList) ("abc".toList) rfl,
   C4_content_hash.2.1 ("abc".toList)⟩

/-- C8: the similarity metric is symmetric, equals the length on equal
arguments, and is 0 whenever either input is empty. -/
theorem C8_lcs_algebra :
    (∀ a b : Str,
      longest_common_substring_len a b = longest_common_substring_len b a) ∧
    (∀ a : Str, longest_common_substring_len a a = a.length) ∧
    (∀ a b : Str, a = [] ∨ b = [] → longest_common_substring_len a b = 0) :=
  ⟨lcs_comm, lcs_self, lcs_empty⟩

/-- Witness for C8 at concrete strings. -/
theorem C8_lcs_algebra_witness :
    longest_common_substring_len [] ("xy".toList) = 0 ∧
      longest_common_substring_len ("ab".toList) ("ba".toList) =
        longest_common_substring_len ("ba".toList) ("ab".toList) :=
  ⟨C8_lcs_algebra.2.2 [] ("xy".toList) (Or.inl rfl),
   C8_lcs_algebra.1 ("ab".toList) ("ba".toList)⟩

/-- C10: reconciliation is a pure reordering — the side tables of texts,
locations, types and dates are untouched, every book's hash list is
replaced by a list obtained from its own input list alone, that list is a
permutation of the input, and entries tied under the branch's sort key
(among them all entries ranked `-1`) keep their relative order.  Overlap
detection (`overlapFlags`) is a separate read-only diagnostic and does not
appear in `reconcile` at all, mirroring the source, where it only prints. -/
theorem C10_reconcile_pure :
    (∀ s : AggState,
      (reconcile s).notes = s.notes ∧ (reconcile s).locations = s.locations ∧
      (reconcile s).types = s.types ∧ (reconcile s).dates = s.dates ∧
      (reconcile s).books = s.books.map fun kb => (kb.1, reconcileBook s.locations kb.2)) ∧
    (∀ (locations : Str → Str) (hashes : List Str),
      (reconcileBook locations hashes).Perm hashes ∧
      ∀ v : Int,
        (reconcileBook locations hashes).filter
            (fun h => bookKeyFn locations hashes h == v) =
          hashes.filter (fun h => bookKeyFn locations hashes h == v)) :=
  ⟨fun _ => ⟨rfl, rfl, rfl, rfl, rfl⟩,
   fun locations hashes =>
    ⟨reconcileBook_perm locations hashes, reconcileBook_filter locations hashes⟩⟩

/-- C5: for a book whose first note's location string contains `"loc. "`,
reconciliation stable-sorts the hash list ascending by `rangeKey` — the
integer start of the first `digits-digits` range of each note's location
string, with `-1` for notes without a parseable range, so those sort
first — and the sorted list is a permutation of the input; on the
specification's example the reconciled order is `loc. 1-5`, `loc. 10-12`,
`loc. 50-60`. -/
theorem C5_location_ordering :
    (∀ (locations : Str → Str) (h0 : Str) (rest : List Str),
      hasSub (locations h0) locMarker = true →
      reconcileBook locations (h0 :: rest) = sortK (rangeKey locations) (h0 :: rest) ∧
      List.Sorted (fun x y => rangeKey locations x ≤ rangeKey locations y)
        (reconcileBook locations (h0 :: rest)) ∧
      (reconcileBook locations (h0 :: rest)).Perm (h0 :: rest)) ∧
    reconcileBook exLoc [hashA, hashB, hashC] = [hashC, hashA, hashB] := by
  constructor
  · intro locations h0 rest h
    have heq : reconcileBook locations (h0 :: rest) =
        sortK (rangeKey locations) (h0 :: rest) := by
      simp only [reconcileBook]
      rw [if_pos h]
    refine ⟨heq, ?_, ?_⟩
    · rw [heq]; exact sortK_sorted _ _
    · rw [heq]; exact sortK_perm _ _
  · decide

/-- Witness for C5 at the specification's example book. -/
theorem C5_location_ordering_witness :
    List.Sorted (fun x y => rangeKey exLoc x ≤ rangeKey exLoc y)
      (reconcileBook exLoc [hashA, hashB, hashC]) ∧
    (reconcileBook exLoc [hashA, hashB, hashC]).Perm [hashA, hashB, hashC] :=
  ⟨(C5_location_ordering.1 exLoc hashA [hashB, hashC] (by decide)).2.1,
   (C5_location_ordering.1 exLoc hashA [hashB, hashC] (by decide)).2.2⟩

set_option maxRecDepth 200000 in
/-- C1 (the code contradicts it): on the one-highlight file `c1lines` the
first run does write the note, but the emitted comment line is
`"<location> ; <date> ; <author> ; <title>"` with the `commentstr +
note_hash` prefix commented out in the source (lines 386-391), so the
existing-hash scanner recovers no hash at all from the output, and the
second run — fed the scan of the first run's output as its
ExistingHashIndex — counts the very same note as new again (1 new note,
not 0). -/
theorem C1_idempotence_broken :
    c1out ≠ [] ∧ c1scan = [] ∧ c1secondRunNew = 1 := by
  refine ⟨by decide, by decide, by decide⟩

set_option maxRecDepth 200000 in
/-- C3 counterexample: the scenario record parses to the normalized text
`"Some highlighted  text."` — the single replace pass turns the triple
space into a double space — which differs from the claimed
`"Some highlighted text."`. -/
theorem C3_text_counterexample :
    c3rec.map Record.text = some ("Some highlighted  text.".toList) ∧
      ("Some highlighted  text.".toList ≠ "Some highlighted text.".toList) := by
  refine ⟨by decide, by decide⟩

set_option maxRecDepth 200000 in
/-- C3 as amended: the scenario record parses to title `"Book Title"`,
author `"Jane Doe"`, note type `"Highlight"`, location string `"p.12"`,
and normalized text `"Some highlighted  text."` (the code strips outer
whitespace and then makes one left-to-right replace pass, so the triple
space collapses only to a double space); the content hash is the
8-character hash of that normalized text. -/
theorem C3_parse_scenario :
    c3rec.map Record.title = some ("Book Title".toList) ∧
    c3rec.map Record.author = some ("Jane Doe".toList) ∧
    c3rec.map Record.noteType = some ("Highlight".toList) ∧
    c3rec.map Record.locstr = some ("p.12".toList) ∧
    c3rec.map Record.text = some ("Some highlighted  text.".toList) ∧
    c3rec.map (fun r => r.hashv.length) = some 8 ∧
    c3rec.map Record.hashv = c3rec.map (fun r => note_hash r.text) := by
  refine ⟨by decide, by decide, by decide, by decide, by decide, by decide, by decide⟩

set_option maxRecDepth 200000 in
/-- C2 counterexample: a selected book with three parsed notes, two of
them already in the ExistingHashIndex, has exactly 1 new note (≤ 2), and
it does produce output — yet it is routed to its own per-book file
(`short = false`), because the source routes on `len(pub_notes[key])`,
the total parsed-note count, not on the new-note count. -/
theorem C2_routing_counterexample :
    countNewHashes c2existing c2hashes = 1 ∧
    (processBook [] true c2existing c2notesT (fun _ => []) (fun _ => [])
        c2author c2title c2notes c2hashes).isSome ∧
    (processBook [] true c2existing c2notesT (fun _ => []) (fun _ => [])
        c2author c2title c2notes c2hashes).map (fun x => x.2.1) = some false := by
  refine ⟨by decide, by decide, by decide⟩

/-- C2 as amended: for every selected book that produces output, the book
is routed to the shared short-notes file exactly when it has at most 2
parsed notes in total (new and already-indexed alike); with more than 2
parsed notes it gets its own `"<author> - <short-title>.md"` file. -/
theorem C2_short_routing :
    ∀ (today : Str) (freshFile : Bool) (existing : Str → Option Str)
      (notes locations dates : Str → Str) (author title : Str)
      (pubNotes pubHashes : List Str) (fname : Str) (short : Bool) (text : Str),
      processBook today freshFile existing notes locations dates author title
          pubNotes pubHashes = some (fname, short, text) →
      ((short = true ↔ pubNotes.length ≤ 2) ∧
       (short = true → fname = "short_notes.md".toList) ∧
       (short = false →
         fname = author ++ " - ".toList ++ strip (shortTitleOf title) ++ ".md".toList)) := by
  intro today freshFile existing notes locations dates author title pubNotes pubHashes
    fname short text h
  simp only [processBook] at h
  split at h
  · exact absurd h (by simp)
  · rw [Option.some.injEq, Prod.mk.injEq, Prod.mk.injEq] at h
    obtain ⟨h1, h2, -⟩ := h
    rw [← h1, ← h2]
    by_cases hn : pubNotes.length > 2
    · simp only [routeBook, if_pos hn]
      refine ⟨by simp; omega, by simp, by simp⟩
    · simp only [routeBook, if_neg hn]
      refine ⟨by simp; omega, by simp, by simp⟩

set_option maxRecDepth 200000 in
/-- Witness for C2's amended routing statement at the counterexample
book. -/
theorem C2_short_routing_witness :
    false = true ↔ c2notes.length ≤ 2 := by
  have h :
      processBook [] true c2existing c2notesT (fun _ => []) (fun _ => [])
          c2author c2title c2notes c2hashes =
        some (c2author ++ " - ".toList ++ strip (shortTitleOf c2title) ++ ".md".toList,
          false,
          bookFileText false true [] c2author c2title c2notesT (fun _ => []) (fun _ => [])
            c2existing c2hashes) := by decide
  exact (C2_short_routing [] true c2existing c2notesT (fun _ => []) (fun _ => [])
    c2author c2title c2notes c2hashes _ false _ h).1

/-- C7: a selected book produces no file write at all exactly when every
one of its hashes is already in the ExistingHashIndex; otherwise a note
is written exactly when its hash is absent from the index and its text is
non-empty.  (The written list is a filter of the reconciled hash list, so
already-present and empty notes still took part in parsing and
ordering.) -/
theorem C7_dedup_gate :
    ∀ (existing : Str → Option Str) (notes : Str → Str) (hashes : List Str),
      (bookWrite existing notes hashes = none ↔
        ∀ h ∈ hashes, (existing h).isSome) ∧
      (∀ h : Str,
        (∃ L, bookWrite existing notes hashes = some L ∧ h ∈ L) ↔
          (h ∈ hashes ∧ (existing h).isNone ∧ notes h ≠ [])) := by
  intro existing notes hashes
  have hcount : countNewHashes existing hashes = 0 ↔
      ∀ h ∈ hashes, (existing h).isSome := by
    simp only [countNewHashes, List.length_eq_zero, List.filter_eq_nil_iff]
    constructor
    · intro h1 h hmem
      have := h1 h hmem
      simp only [Bool.not_eq_true, Option.isNone_eq_false_iff] at this
      exact this
    · intro h1 h hmem
      have := h1 h hmem
      simp only [Bool.not_eq_true, Option.isNone_eq_false_iff]
      exact this
  constructor
  · constructor
    · intro h
      apply hcount.mp
      by_contra hc
      rw [bookWrite, if_neg hc] at h
      exact absurd h (by simp)
    · intro h
      rw [bookWrite, if_pos (hcount.mpr h)]
  · intro h
    constructor
    · rintro ⟨L, hL, hmem⟩
      have hLw : L = writtenHashes existing notes hashes := by
        by_cases hc : countNewHashes existing hashes = 0
        · rw [bookWrite, if_pos hc] at hL
          exact absurd hL (by simp)
        · rw [bookWrite, if_neg hc] at hL
          exact (Option.some.injEq _ _ ▸ hL).symm
      subst hLw
      rw [writtenHashes, List.mem_filter] at hmem
      refine ⟨hmem.1, ?_, ?_⟩
      · have := hmem.2
        simp only [Bool.and_eq_true] at this
        exact this.1
      · have := hmem.2
        simp only [Bool.and_eq_true, Bool.not_eq_true'] at this
        simpa [List.isEmpty_iff] using this.2
    · rintro ⟨hmem, hnone, hne⟩
      have hfmem : h ∈ writtenHashes existing notes hashes := by
        rw [writtenHashes, List.mem_filter]
        refine ⟨hmem, ?_⟩
        simp only [Bool.and_eq_true, Bool.not_eq_true']
        exact ⟨hnone, by simpa [List.isEmpty_iff] using hne⟩
      have hc : countNewHashes existing hashes ≠ 0 := by
        intro h0
        have := hcount.mp h0 h hmem
        rw [Option.isSome_iff_ne_none] at this
        rw [Option.isNone_iff_eq_none] at hnone
        exact this hnone
      exact ⟨writtenHashes existing notes hashes, by rw [bookWrite, if_neg hc], hfmem⟩

/-- C6: in the location branch an adjacent pair is flagged as a suspected
overlap if and only if neither note is a Bookmark, at least one text has
length 52 or more, both location strings contain a parseable
`start-end` range, the two ranges share an endpoint, and the longest
common contiguous substring of the two texts is strictly longer than 0.4
times (here: 2/5, exactly equivalent for every feasible length) the longer
text's length.  Flagging is diagnostic only (see C10). -/
theorem C6_overlap_flag :
    ∀ (notes types locations : Str → Str) (h1 h2 : Str),
      flagPair notes types locations h1 h2 = true ↔
        (types h1 ≠ bookmarkT ∧ types h2 ≠ bookmarkT ∧
         52 ≤ max (notes h1).length (notes h2).length ∧
         ∃ g11 g12 g21 g22,
           numrangeSearch (locations h1) = some (g11, g12) ∧
           numrangeSearch (locations h2) = some (g21, g22) ∧
           (digitsToNat g11 = digitsToNat g21 ∨ digitsToNat g11 = digitsToNat g22 ∨
            digitsToNat g12 = digitsToNat g21 ∨ digitsToNat g12 = digitsToNat g22) ∧
           5 * longest_common_substring_len (notes h1) (notes h2) >
             2 * max (notes h1).length (notes h2).length) := by
  intro notes types locations h1 h2
  simp only [flagPair]
  by_cases hb1 : types h1 = bookmarkT
  · rw [if_pos (Or.inl hb1)]
    simp [hb1]
  · by_cases hb2 : types h2 = bookmarkT
    · rw [if_pos (Or.inr (Or.inl hb2))]
      simp [hb2]
    · by_cases hlen : max (notes h1).length (notes h2).length < 52
      · rw [if_pos (Or.inr (Or.inr hlen))]
        simp only [Bool.false_eq_true, false_iff]
        rintro ⟨-, -, h52, -⟩
        omega
      · rw [if_neg (by push_neg; exact ⟨hb1, hb2, by omega⟩)]
        cases s1 : numrangeSearch (locations h1) with
        | none => simp [s1]
        | some p1 =>
          obtain ⟨g11, g12⟩ := p1
          cases s2 : numrangeSearch (locations h2) with
          | none => simp [s2]
          | some p2 =>
            obtain ⟨g21, g22⟩ := p2
            dsimp only
            by_cases hend : digitsToNat g11 = digitsToNat g21 ∨
                digitsToNat g11 = digitsToNat g22 ∨
                digitsToNat g12 = digitsToNat g21 ∨ digitsToNat g12 = digitsToNat g22
            · rw [if_pos hend]
              simp only [decide_eq_true_eq]
              constructor
              · intro hlcs
                exact ⟨hb1, hb2, by omega, g11, g12, g21, g22, rfl, rfl, hend, hlcs⟩
              · rintro ⟨-, -, -, g11', g12', g21', g22', -, -, -, hlcs⟩
                exact hlcs
            · rw [if_neg hend]
              simp only [Bool.false_eq_true, false_iff]
              rintro ⟨-, -, -, g11', g12', g21', g22', e1, e2, hend', -⟩
              rw [Option.some.injEq, Prod.mk.injEq] at e1 e2
              rw [← e1.1, ← e1.2, ← e2.1, ← e2.2] at hend'
              exact hend hend'

/-- C9: a record whose information line fails `regex_info` aborts the
whole run at that record with the offending line carried in the error, no
matter what the well-formed records before it were and what lines follow
it (nothing after the malformed record is processed); by contrast whether
the run aborts never depends on the date oracle, and a record whose date
fails to parse keeps its raw date string. -/
theorem C9_malformed_abort :
    (∀ (dp : Str → Option Str) (g : List Str) (header bad : Str) (tl : List Str),
        WFRecs g → strip header ≠ [] → matchInfo (strip bad) = none →
        parseLoop dp (g ++ header :: bad :: tl) =
          .error (.malformedInfo (strip bad))) ∧
    (∀ (dp dp' : Str → Option Str) (lines : List Str) (e : PErr),
        parseLoop dp lines = .error e ↔ parseLoop dp' lines = .error e) ∧
    (∀ (dp : Str → Option Str) (lines : List Str) (rs : List Record),
        parseLoop dp lines = .ok rs →
        ∀ r ∈ rs, dp r.dateRaw = none → r.datestr = r.dateRaw) := by
  refine ⟨?_, ?_, ?_⟩
  · intro dp g header bad tl hg hh hb
    exact parseLoop_wf_prepend_error dp g hg _ _
      (parseLoop_malformed_base dp header bad tl hh hb)
  · intro dp dp' lines e
    have key : ∀ d : Str → Option Str,
        parseLoop d lines = .error e ↔ parseLoop dpNone lines = .error e := by
      intro d
      rw [parseLoop_map_dp d lines]
      cases parseLoop dpNone lines <;> simp [Except.map]
    rw [key dp, key dp']
  · intro dp lines rs h r hr hdp
    have hmap := parseLoop_map_dp dp lines
    rw [h] at hmap
    cases hbase : parseLoop dpNone lines with
    | error e0 => rw [hbase] at hmap; simp [Except.map] at hmap
    | ok rs0 =>
      rw [hbase] at hmap
      simp only [Except.map] at hmap
      rw [Except.ok.injEq] at hmap
      subst hmap
      rw [List.mem_map] at hr
      obtain ⟨r0, hr0, hre⟩ := hr
      rw [← hre] at hdp ⊢
      simp only [reDate] at hdp ⊢
      rw [hdp]
      rfl

set_option maxRecDepth 200000 in
/-- Witness for C9's fatal abort at a concrete malformed stream. -/
theorem C9_malformed_abort_witness :
    parseLoop dpNone
        ([] ++ ("Example Book (John Smith)".toList ::
          "garbage".toList :: ["after".toList])) =
      .error (.malformedInfo (strip ("garbage".toList))) :=
  C9_malformed_abort.1 dpNone [] ("Example Book (John Smith)".toList)
    ("garbage".toList) ["after".toList] WFRecs.nil (by decide) (by decide)

set_option maxRecDepth 1000000 in
/-- Witness for C6: the concrete overlapping pair is flagged. -/
theorem C6_overlap_flag_witness :
    flagPair c6notesT c6typesT c6locT ("h1".toList) ("h2".toList) = true :=
  (C6_overlap_flag c6notesT c6typesT c6locT ("h1".toList) ("h2".toList)).mpr
    ⟨by decide, by decide, by decide,
     "100".toList, "150".toList, "150".toList, "200".toList,
     by decide, by decide, by decide, by decide⟩

/-- Witness for C7: a book whose only hash is already indexed is not
written at all. -/
theorem C7_dedup_gate_witness :
    bookWrite c7existing (fun _ => []) [c7hash1] = none :=
  (C7_dedup_gate c7existing (fun _ => []) [c7hash1]).1.mpr (by decide)

/-- Witness for C10 at a concrete aggregation state. -/
theorem C10_reconcile_pure_witness :
    (reconcile c10state).notes = c10state.notes ∧
      (reconcileBook exLoc [hashA, hashB, hashC]).Perm [hashA, hashB, hashC] :=
  ⟨(C10_reconcile_pure.1 c10state).1,
   (C10_reconcile_pure.2 exLoc [hashA, hashB, hashC]).1⟩
